import Mathlib

/-!
Verification of the entity-extraction and knowledge-graph construction
logic of `app.py`.

The program buckets NER entity spans `(text, label)` into three Python
sets (authors, organizations, citations), builds an undirected NetworkX
graph connecting every author to every organization and citation, and
renders it through a temporary HTML file.

Python sets are embedded as duplicate-free lists with a guarded insert
(`setAdd`).  The NetworkX graph is embedded with its observable
semantics: `add_node` on an existing node overwrites its attributes,
`add_edge` silently adds missing endpoints (with no attributes), allows
self-loops, and never duplicates an existing undirected edge.
-/

/-- `set.add` of Python: insert a string into a set (no duplicates). -/
def setAdd (s : List String) (x : String) : List String :=
  if x ∈ s then s else s ++ [x]

/-- The loop body of `extract_entities`: process the entity spans in order,
dispatching on the span label exactly as the `if/elif` chain does. -/
def extractLoop (authors organizations citations : List String) :
    List (String × String) → List String × List String × List String
  | [] => (authors, organizations, citations)
  | ent :: rest =>
    if ent.2 = "PERSON" then
      extractLoop (setAdd authors ent.1) organizations citations rest
    else if ent.2 = "ORG" then
      extractLoop authors (setAdd organizations ent.1) citations rest
    else if ent.2 = "WORK_OF_ART" ∨ ent.2 = "MISC" then
      extractLoop authors organizations (setAdd citations ent.1) rest
    else
      extractLoop authors organizations citations rest

/-- `extract_entities`: bucket the NER spans of the document into authors,
organizations and citations.  The NER engine itself is external; its
output is the list of `(span text, label)` pairs. -/
def extract_entities (ents : List (String × String)) :
    List String × List String × List String :=
  extractLoop [] [] [] ents

/-- Attributes attached to a NetworkX node.  A node introduced implicitly
by `add_edge` carries no attributes, hence the `Option`s. -/
structure NodeData where
  label : Option String
  color : Option String
deriving Repr, DecidableEq

/-- An undirected NetworkX graph: nodes with their attribute dictionaries,
and edges as unordered pairs (stored in insertion order). -/
structure Graph where
  nodes : List (String × NodeData)
  edges : List (String × String)
deriving Repr, DecidableEq

def Graph.names (G : Graph) : List String := G.nodes.map Prod.fst

/-- Replace the attributes of the node `n` if present, else append it. -/
def updateNode (n : String) (d : NodeData) :
    List (String × NodeData) → List (String × NodeData)
  | [] => [(n, d)]
  | p :: rest => if p.1 = n then (n, d) :: rest else p :: updateNode n d rest

/-- `G.add_node(n, label=l, color=c)`: adds the node, or overwrites the
attributes of an existing node with the same name. -/
def Graph.add_node (G : Graph) (n l c : String) : Graph :=
  { G with nodes := updateNode n ⟨some l, some c⟩ G.nodes }

/-- `add_edge` adds a missing endpoint as a node with no attributes. -/
def Graph.ensureNode (G : Graph) (n : String) : Graph :=
  if n ∈ G.names then G else { G with nodes := G.nodes ++ [(n, ⟨none, none⟩)] }

/-- Undirected edge membership. -/
def Graph.hasEdge (G : Graph) (u v : String) : Bool :=
  (u, v) ∈ G.edges || (v, u) ∈ G.edges

/-- `G.add_edge(u, v)`: ensures both endpoints exist, then records the
undirected edge once (re-adding an existing edge changes nothing). -/
def Graph.add_edge (G : Graph) (u v : String) : Graph :=
  let G₁ := (G.ensureNode u).ensureNode v
  if G₁.hasEdge u v then G₁ else { G₁ with edges := G₁.edges ++ [(u, v)] }

/-- First loop of `create_knowledge_graph`: add every author node. -/
def addAuthors (G : Graph) : List String → Graph
  | [] => G
  | a :: rest => addAuthors (G.add_node a "Author" "blue") rest

/-- Inner loop: connect every author to the node `x`. -/
def addEdgesToAuthors (G : Graph) (x : String) : List String → Graph
  | [] => G
  | a :: rest => addEdgesToAuthors (G.add_edge a x) x rest

/-- Second loop: add every organization node and connect it to all authors. -/
def addOrgs (G : Graph) (authors : List String) : List String → Graph
  | [] => G
  | o :: rest =>
    addOrgs (addEdgesToAuthors (G.add_node o "Organization" "red") o authors)
      authors rest

/-- Third loop: add every citation node and connect it to all authors. -/
def addCits (G : Graph) (authors : List String) : List String → Graph
  | [] => G
  | c :: rest =>
    addCits (addEdgesToAuthors (G.add_node c "Citation" "green") c authors)
      authors rest

/-- `create_knowledge_graph(authors, organizations, citations)`. -/
def create_knowledge_graph (authors organizations citations : List String) :
    Graph :=
  addCits (addOrgs (addAuthors ⟨[], []⟩ authors) authors organizations)
    authors citations

/-- Look up the `label` attribute of a node, `none` if the node is absent
or carries no label. -/
def Graph.nodeLabel (G : Graph) (n : String) : Option String :=
  match G.nodes.find? (fun p => p.1 = n) with
  | some p => p.2.label
  | none => none

/-- Every node of `G` carries one of the three category labels. -/
def goodLabels (G : Graph) : Prop :=
  ∀ p ∈ G.nodes, p.2.label = some "Author" ∨
    p.2.label = some "Organization" ∨ p.2.label = some "Citation"

/-- What a results column of `main` renders for one entity category:
either the entity set itself or an explicit placeholder message
(`st.write(s if s else msg)`, with the Python truthiness of sets). -/
inductive RenderOut where
  | entitySet (s : List String)
  | message (m : String)
deriving Repr, DecidableEq

def displayCategory (s : List String) (msg : String) : RenderOut :=
  if s.isEmpty then .message msg else .entitySet s

def displayAuthors (authors : List String) : RenderOut :=
  displayCategory authors "No authors found"

def displayOrganizations (organizations : List String) : RenderOut :=
  displayCategory organizations "No organizations found"

def displayCitations (citations : List String) : RenderOut :=
  displayCategory citations "No citations found"

/-- `render_graph`, with its filesystem effects made explicit.  `fs` is
the set of files present, `tmpName` the fresh name chosen by
`tempfile.NamedTemporaryFile(delete=False)`, `html` the content
`net.save_graph` writes.  `saveOk` and `readOk` say whether the
`net.save_graph` call and the `open(...).read()` call succeed; the code
has no `try/finally`, so an exception propagates from the point where it
is raised.  Returns the result (or the exception) together with the
final filesystem. -/
def render_graph (fs : List String) (tmpName html : String)
    (saveOk readOk : Bool) : Except String String × List String :=
  let fs₁ := fs ++ [tmpName]
  if saveOk = false then (Except.error "save_graph failed", fs₁)
  else if readOk = false then (Except.error "read failed", fs₁)
  else (Except.ok html, fs₁.erase tmpName)

theorem mem_setAdd {s : List String} {x y : String} :
    x ∈ setAdd s y ↔ x ∈ s ∨ x = y := by
  unfold setAdd
  split
  · rename_i hy
    refine ⟨Or.inl, ?_⟩
    rintro (hx | rfl)
    · exact hx
    · exact hy
  · simp

theorem nodup_setAdd {s : List String} (h : s.Nodup) (y : String) :
    (setAdd s y).Nodup := by
  unfold setAdd
  split
  · exact h
  · rename_i hy
    simp [List.nodup_append, h, hy]

theorem mem_extractLoop_authors {as os cs : List String}
    {ents : List (String × String)} {x : String} :
    x ∈ (extractLoop as os cs ents).1 ↔ x ∈ as ∨ (x, "PERSON") ∈ ents := by
  induction ents generalizing as os cs with
  | nil => simp [extractLoop]
  | cons ent rest ih =>
    obtain ⟨t, l⟩ := ent
    simp only [extractLoop]
    by_cases h₁ : l = "PERSON"
    · subst h₁
      rw [if_pos rfl, ih]
      simp only [mem_setAdd, List.mem_cons, Prod.mk.injEq, and_true]
      tauto
    · rw [if_neg h₁]
      have h₁' : ¬ (("PERSON" : String) = l) := fun h => h₁ h.symm
      by_cases h₂ : l = "ORG"
      · rw [if_pos h₂, ih]
        simp [Prod.ext_iff, h₁']
      · rw [if_neg h₂]
        by_cases h₃ : l = "WORK_OF_ART" ∨ l = "MISC"
        · rw [if_pos h₃, ih]
          simp [Prod.ext_iff, h₁']
        · rw [if_neg h₃, ih]
          simp [Prod.ext_iff, h₁']

theorem mem_extractLoop_orgs {as os cs : List String}
    {ents : List (String × String)} {x : String} :
    x ∈ (extractLoop as os cs ents).2.1 ↔ x ∈ os ∨ (x, "ORG") ∈ ents := by
  induction ents generalizing as os cs with
  | nil => simp [extractLoop]
  | cons ent rest ih =>
    obtain ⟨t, l⟩ := ent
    simp only [extractLoop]
    by_cases h₁ : l = "PERSON"
    · rw [if_pos h₁, ih]
      have h₁' : ¬ (("ORG" : String) = l) := fun h => by simp [h₁] at h
      simp [Prod.ext_iff, h₁']
    · rw [if_neg h₁]
      by_cases h₂ : l = "ORG"
      · subst h₂
        rw [if_pos rfl, ih]
        simp only [mem_setAdd, List.mem_cons, Prod.mk.injEq, and_true]
        tauto
      · rw [if_neg h₂]
        have h₂' : ¬ (("ORG" : String) = l) := fun h => h₂ h.symm
        by_cases h₃ : l = "WORK_OF_ART" ∨ l = "MISC"
        · rw [if_pos h₃, ih]
          simp [Prod.ext_iff, h₂']
        · rw [if_neg h₃, ih]
          simp [Prod.ext_iff, h₂']

theorem mem_extractLoop_cits {as os cs : List String}
    {ents : List (String × String)} {x : String} :
    x ∈ (extractLoop as os cs ents).2.2 ↔
      x ∈ cs ∨ (x, "WORK_OF_ART") ∈ ents ∨ (x, "MISC") ∈ ents := by
  induction ents generalizing as os cs with
  | nil => simp [extractLoop]
  | cons ent rest ih =>
    obtain ⟨t, l⟩ := ent
    simp only [extractLoop]
    by_cases h₁ : l = "PERSON"
    · rw [if_pos h₁, ih]
      have hW : ¬ (("WORK_OF_ART" : String) = l) := fun h => by simp [h₁] at h
      have hM : ¬ (("MISC" : String) = l) := fun h => by simp [h₁] at h
      simp [Prod.ext_iff, hW, hM]
    · rw [if_neg h₁]
      by_cases h₂ : l = "ORG"
      · rw [if_pos h₂, ih]
        have hW : ¬ (("WORK_OF_ART" : String) = l) := fun h => by simp [h₂] at h
        have hM : ¬ (("MISC" : String) = l) := fun h => by simp [h₂] at h
        simp [Prod.ext_iff, hW, hM]
      · rw [if_neg h₂]
        by_cases h₃ : l = "WORK_OF_ART" ∨ l = "MISC"
        · rw [if_pos h₃, ih]
          rcases h₃ with h₃ | h₃ <;> subst h₃ <;>
            simp only [mem_setAdd, List.mem_cons, Prod.mk.injEq, and_true] <;>
            simp <;> tauto
        · rw [if_neg h₃, ih]
          push_neg at h₃
          have hW : ¬ (("WORK_OF_ART" : String) = l) := fun h => h₃.1 h.symm
          have hM : ¬ (("MISC" : String) = l) := fun h => h₃.2 h.symm
          simp [Prod.ext_iff, hW, hM]

theorem mem_extract_authors {ents : List (String × String)} {x : String} :
    x ∈ (extract_entities ents).1 ↔ (x, "PERSON") ∈ ents := by
  simp [extract_entities, mem_extractLoop_authors]

theorem mem_extract_orgs {ents : List (String × String)} {x : String} :
    x ∈ (extract_entities ents).2.1 ↔ (x, "ORG") ∈ ents := by
  simp [extract_entities, mem_extractLoop_orgs]

theorem mem_extract_cits {ents : List (String × String)} {x : String} :
    x ∈ (extract_entities ents).2.2 ↔
      (x, "WORK_OF_ART") ∈ ents ∨ (x, "MISC") ∈ ents := by
  simp [extract_entities, mem_extractLoop_cits]

theorem nodup_extractLoop {as os cs : List String}
    {ents : List (String × String)} (ha : as.Nodup) (ho : os.Nodup)
    (hc : cs.Nodup) :
    (extractLoop as os cs ents).1.Nodup ∧ (extractLoop as os cs ents).2.1.Nodup
      ∧ (extractLoop as os cs ents).2.2.Nodup := by
  induction ents generalizing as os cs with
  | nil => exact ⟨ha, ho, hc⟩
  | cons ent rest ih =>
    obtain ⟨t, l⟩ := ent
    by_cases h₁ : l = "PERSON"
    · simpa [extractLoop, h₁] using ih (nodup_setAdd ha t) ho hc
    · by_cases h₂ : l = "ORG"
      · simpa [extractLoop, h₁, h₂] using ih ha (nodup_setAdd ho t) hc
      · by_cases h₃ : l = "WORK_OF_ART" ∨ l = "MISC"
        · simpa [extractLoop, h₁, h₂, h₃] using ih ha ho (nodup_setAdd hc t)
        · simpa [extractLoop, h₁, h₂, h₃] using ih ha ho hc

theorem map_fst_updateNode (n : String) (d : NodeData)
    (ns : List (String × NodeData)) :
    (updateNode n d ns).map Prod.fst =
      if n ∈ ns.map Prod.fst then ns.map Prod.fst
      else ns.map Prod.fst ++ [n] := by
  induction ns with
  | nil => simp [updateNode]
  | cons p rest ih =>
    simp only [updateNode]
    by_cases h : p.1 = n
    · rw [if_pos h]
      simp [h]
    · rw [if_neg h]
      have h' : ¬ n = p.1 := fun hh => h hh.symm
      by_cases hm : n ∈ rest.map Prod.fst
      · simp [ih, hm, h']
      · simp [ih, hm, h']

theorem mem_names_add_node {G : Graph} {m n : String} (l c : String) :
    m ∈ (G.add_node n l c).names ↔ m ∈ G.names ∨ m = n := by
  show m ∈ (updateNode n ⟨some l, some c⟩ G.nodes).map Prod.fst ↔ _
  rw [map_fst_updateNode]
  split
  · rename_i h
    refine ⟨Or.inl, ?_⟩
    rintro (hm | rfl)
    · exact hm
    · exact h
  · simp [Graph.names]

theorem nodup_names_add_node {G : Graph} (h : G.names.Nodup) (n l c : String) :
    (G.add_node n l c).names.Nodup := by
  show ((updateNode n ⟨some l, some c⟩ G.nodes).map Prod.fst).Nodup
  rw [map_fst_updateNode]
  split
  · exact h
  · rename_i hn
    simp only [Graph.names] at h hn
    simp [List.nodup_append, h, hn]

theorem mem_nodes_updateNode {p : String × NodeData} {n : String}
    {d : NodeData} {ns : List (String × NodeData)}
    (h : p ∈ updateNode n d ns) : p ∈ ns ∨ p = (n, d) := by
  induction ns with
  | nil => simpa [updateNode] using h
  | cons q rest ih =>
    simp only [updateNode] at h
    by_cases hq : q.1 = n
    · rw [if_pos hq] at h
      rcases List.mem_cons.mp h with rfl | hr
      · exact Or.inr rfl
      · exact Or.inl (List.mem_cons_of_mem _ hr)
    · rw [if_neg hq] at h
      rcases List.mem_cons.mp h with rfl | hr
      · exact Or.inl (List.mem_cons_self _ _)
      · rcases ih hr with h' | h'
        · exact Or.inl (List.mem_cons_of_mem _ h')
        · exact Or.inr h'

theorem find_updateNode_self (n : String) (d : NodeData)
    (ns : List (String × NodeData)) :
    (updateNode n d ns).find? (fun p => p.1 = n) = some (n, d) := by
  induction ns with
  | nil => simp [updateNode]
  | cons q rest ih =>
    simp only [updateNode]
    by_cases hq : q.1 = n
    · rw [if_pos hq]
      simp
    · rw [if_neg hq]
      rw [List.find?_cons_of_neg _ (by simpa using hq)]
      exact ih

theorem find_updateNode_other {m n : String} (hmn : m ≠ n) (d : NodeData)
    (ns : List (String × NodeData)) :
    (updateNode n d ns).find? (fun p => p.1 = m) =
      ns.find? (fun p => p.1 = m) := by
  induction ns with
  | nil =>
    simp only [updateNode]
    rw [List.find?_cons_of_neg _ (by simpa using fun h => hmn h.symm)]
  | cons q rest ih =>
    simp only [updateNode]
    by_cases hq : q.1 = n
    · rw [if_pos hq]
      rw [List.find?_cons_of_neg _ (by simpa using fun h => hmn h.symm)]
      rw [List.find?_cons_of_neg _
        (by simpa using fun h => hmn (h.symm.trans hq))]
    · rw [if_neg hq]
      by_cases hm : q.1 = m
      · rw [List.find?_cons_of_pos _ (by simpa using hm),
          List.find?_cons_of_pos _ (by simpa using hm)]
      · rw [List.find?_cons_of_neg _ (by simpa using hm),
          List.find?_cons_of_neg _ (by simpa using hm)]
        exact ih

theorem nodeLabel_add_node_self (G : Graph) (n l c : String) :
    (G.add_node n l c).nodeLabel n = some l := by
  unfold Graph.nodeLabel Graph.add_node
  rw [find_updateNode_self]

theorem nodeLabel_add_node_other {G : Graph} {m n : String} (hmn : m ≠ n)
    (l c : String) : (G.add_node n l c).nodeLabel m = G.nodeLabel m := by
  unfold Graph.nodeLabel Graph.add_node
  rw [find_updateNode_other hmn]

theorem ensureNode_of_mem {G : Graph} {n : String} (h : n ∈ G.names) :
    G.ensureNode n = G := by
  simp [Graph.ensureNode, h]

theorem ensureNode_edges (G : Graph) (n : String) :
    (G.ensureNode n).edges = G.edges := by
  unfold Graph.ensureNode
  split <;> rfl

theorem ensureNode_hasEdge (G : Graph) (n u v : String) :
    (G.ensureNode n).hasEdge u v = G.hasEdge u v := by
  unfold Graph.hasEdge
  rw [ensureNode_edges]

theorem add_node_edges (G : Graph) (n l c : String) :
    (G.add_node n l c).edges = G.edges := rfl

theorem add_node_hasEdge (G : Graph) (n l c u v : String) :
    (G.add_node n l c).hasEdge u v = G.hasEdge u v := rfl

theorem add_edge_nodes {G : Graph} {u v : String} (hu : u ∈ G.names)
    (hv : v ∈ G.names) : (G.add_edge u v).nodes = G.nodes := by
  simp only [Graph.add_edge]
  rw [ensureNode_of_mem hu, ensureNode_of_mem hv]
  split <;> rfl

theorem add_edge_edges (G : Graph) (u v : String) :
    (G.add_edge u v).edges =
      if G.hasEdge u v = true then G.edges else G.edges ++ [(u, v)] := by
  simp only [Graph.add_edge]
  rw [apply_ite Graph.edges]
  simp only [ensureNode_hasEdge, ensureNode_edges]

theorem add_edge_hasEdge_self (G : Graph) (u v : String) :
    (G.add_edge u v).hasEdge u v = true := by
  unfold Graph.hasEdge
  rw [add_edge_edges]
  by_cases h : G.hasEdge u v = true
  · rw [if_pos h]
    unfold Graph.hasEdge at h
    exact h
  · rw [if_neg h]
    simp

theorem add_edge_hasEdge_mono {G : Graph} {a b : String}
    (h : G.hasEdge a b = true) (u v : String) :
    (G.add_edge u v).hasEdge a b = true := by
  unfold Graph.hasEdge at h ⊢
  rw [add_edge_edges]
  split
  · exact h
  · simp only [Bool.or_eq_true, decide_eq_true_eq, List.mem_append] at h ⊢
    tauto

theorem mem_edges_add_edge {G : Graph} {p : String × String} {u v : String}
    (h : p ∈ (G.add_edge u v).edges) : p ∈ G.edges ∨ p = (u, v) := by
  rw [add_edge_edges] at h
  split at h
  · exact Or.inl h
  · simpa using h

theorem nodeLabel_congr_nodes {G G' : Graph} (h : G'.nodes = G.nodes)
    (s : String) : G'.nodeLabel s = G.nodeLabel s := by
  unfold Graph.nodeLabel
  rw [h]

theorem goodLabels_add_node {G : Graph} (h : goodLabels G) {l : String}
    (hl : l = "Author" ∨ l = "Organization" ∨ l = "Citation") (n c : String) :
    goodLabels (G.add_node n l c) := by
  intro p hp
  rcases mem_nodes_updateNode hp with h' | h'
  · exact h p h'
  · subst h'
    rcases hl with rfl | rfl | rfl <;> simp

theorem addAuthors_edges (G : Graph) (as : List String) :
    (addAuthors G as).edges = G.edges := by
  induction as generalizing G with
  | nil => rfl
  | cons a rest ih =>
    simp only [addAuthors]
    rw [ih, add_node_edges]

theorem mem_names_addAuthors {G : Graph} {m : String} {as : List String} :
    m ∈ (addAuthors G as).names ↔ m ∈ G.names ∨ m ∈ as := by
  induction as generalizing G with
  | nil => simp [addAuthors]
  | cons a rest ih =>
    simp only [addAuthors]
    rw [ih, mem_names_add_node]
    simp only [List.mem_cons]
    tauto

theorem addAuthors_goodLabels {G : Graph} (h : goodLabels G)
    (as : List String) : goodLabels (addAuthors G as) := by
  induction as generalizing G with
  | nil => exact h
  | cons a rest ih =>
    simp only [addAuthors]
    exact ih (goodLabels_add_node h (Or.inl rfl) a "blue")

theorem addAuthors_nodup {G : Graph} (h : G.names.Nodup) (as : List String) :
    (addAuthors G as).names.Nodup := by
  induction as generalizing G with
  | nil => exact h
  | cons a rest ih =>
    simp only [addAuthors]
    exact ih (nodup_names_add_node h a "Author" "blue")

theorem addEdgesToAuthors_nodes {G : Graph} {x : String} {as : List String}
    (hx : x ∈ G.names) (has : ∀ a ∈ as, a ∈ G.names) :
    (addEdgesToAuthors G x as).nodes = G.nodes := by
  induction as generalizing G with
  | nil => rfl
  | cons a rest ih =>
    simp only [addEdgesToAuthors]
    have hnodes : (G.add_edge a x).nodes = G.nodes :=
      add_edge_nodes (has a (List.mem_cons_self _ _)) hx
    have hnames : (G.add_edge a x).names = G.names := by
      simp [Graph.names, hnodes]
    have hx' : x ∈ (G.add_edge a x).names := by
      rw [hnames]; exact hx
    have has' : ∀ b ∈ rest, b ∈ (G.add_edge a x).names := fun b hb => by
      rw [hnames]; exact has b (List.mem_cons_of_mem _ hb)
    rw [ih hx' has', hnodes]

theorem addEdgesToAuthors_hasEdge_mono {G : Graph} {u v : String}
    (h : G.hasEdge u v = true) (x : String) (as : List String) :
    (addEdgesToAuthors G x as).hasEdge u v = true := by
  induction as generalizing G with
  | nil => exact h
  | cons a rest ih =>
    simp only [addEdgesToAuthors]
    exact ih (add_edge_hasEdge_mono h a x)

theorem addEdgesToAuthors_hasEdge {G : Graph} {x a : String}
    {as : List String} (ha : a ∈ as) :
    (addEdgesToAuthors G x as).hasEdge a x = true := by
  induction as generalizing G with
  | nil => cases ha
  | cons b rest ih =>
    simp only [addEdgesToAuthors]
    rcases List.mem_cons.mp ha with rfl | hr
    · exact addEdgesToAuthors_hasEdge_mono (add_edge_hasEdge_self G a x) x rest
    · exact ih hr

theorem mem_edges_addEdgesToAuthors {G : Graph} {x : String}
    {as : List String} {p : String × String}
    (h : p ∈ (addEdgesToAuthors G x as).edges) :
    p ∈ G.edges ∨ (p.1 ∈ as ∧ p.2 = x) := by
  induction as generalizing G with
  | nil => exact Or.inl h
  | cons a rest ih =>
    simp only [addEdgesToAuthors] at h
    rcases ih h with h' | h'
    · rcases mem_edges_add_edge h' with h'' | rfl
      · exact Or.inl h''
      · exact Or.inr ⟨List.mem_cons_self _ _, rfl⟩
    · exact Or.inr ⟨List.mem_cons_of_mem _ h'.1, h'.2⟩

theorem orgStep_nodes {G : Graph} {as : List String}
    (hAs : ∀ a ∈ as, a ∈ G.names) (o : String) :
    (addEdgesToAuthors (G.add_node o "Organization" "red") o as).nodes
      = (G.add_node o "Organization" "red").nodes :=
  addEdgesToAuthors_nodes ((mem_names_add_node _ _).mpr (Or.inr rfl))
    (fun a ha => (mem_names_add_node _ _).mpr (Or.inl (hAs a ha)))

theorem orgStep_names {G : Graph} {as : List String}
    (hAs : ∀ a ∈ as, a ∈ G.names) (o : String) :
    (addEdgesToAuthors (G.add_node o "Organization" "red") o as).names
      = (G.add_node o "Organization" "red").names := by
  simp [Graph.names, orgStep_nodes hAs o]

theorem orgStep_hAs {G : Graph} {as : List String}
    (hAs : ∀ a ∈ as, a ∈ G.names) (o : String) :
    ∀ a ∈ as,
      a ∈ (addEdgesToAuthors (G.add_node o "Organization" "red") o as).names :=
  fun a ha => by
    rw [orgStep_names hAs o]
    exact (mem_names_add_node _ _).mpr (Or.inl (hAs a ha))

theorem mem_names_addOrgs {G : Graph} {as os : List String} {m : String}
    (hAs : ∀ a ∈ as, a ∈ G.names) :
    m ∈ (addOrgs G as os).names ↔ m ∈ G.names ∨ m ∈ os := by
  induction os generalizing G with
  | nil => simp [addOrgs]
  | cons o rest ih =>
    simp only [addOrgs]
    rw [ih (orgStep_hAs hAs o), orgStep_names hAs o, mem_names_add_node]
    simp only [List.mem_cons]
    tauto

theorem addOrgs_goodLabels {G : Graph} {as os : List String}
    (h : goodLabels G) (hAs : ∀ a ∈ as, a ∈ G.names) :
    goodLabels (addOrgs G as os) := by
  induction os generalizing G with
  | nil => exact h
  | cons o rest ih =>
    simp only [addOrgs]
    refine ih ?_ (orgStep_hAs hAs o)
    intro p hp
    rw [orgStep_nodes hAs o] at hp
    exact goodLabels_add_node h (Or.inr (Or.inl rfl)) o "red" p hp

theorem addOrgs_nodup {G : Graph} {as os : List String}
    (hnd : G.names.Nodup) (hAs : ∀ a ∈ as, a ∈ G.names) :
    (addOrgs G as os).names.Nodup := by
  induction os generalizing G with
  | nil => exact hnd
  | cons o rest ih =>
    simp only [addOrgs]
    refine ih ?_ (orgStep_hAs hAs o)
    rw [orgStep_names hAs o]
    exact nodup_names_add_node hnd o "Organization" "red"

theorem addOrgs_hasEdge_mono {G : Graph} {u v : String}
    (h : G.hasEdge u v = true) (as os : List String) :
    (addOrgs G as os).hasEdge u v = true := by
  induction os generalizing G with
  | nil => exact h
  | cons o rest ih =>
    simp only [addOrgs]
    refine ih (addEdgesToAuthors_hasEdge_mono ?_ o as)
    rw [add_node_hasEdge]
    exact h

theorem addOrgs_hasEdge {G : Graph} {as os : List String} {a o : String}
    (ha : a ∈ as) (ho : o ∈ os) :
    (addOrgs G as os).hasEdge a o = true := by
  induction os generalizing G with
  | nil => cases ho
  | cons o' rest ih =>
    simp only [addOrgs]
    rcases List.mem_cons.mp ho with rfl | hr
    · exact addOrgs_hasEdge_mono (addEdgesToAuthors_hasEdge ha) as rest
    · exact ih hr

theorem mem_edges_addOrgs {G : Graph} {as os : List String}
    {p : String × String} (h : p ∈ (addOrgs G as os).edges) :
    p ∈ G.edges ∨ (p.1 ∈ as ∧ p.2 ∈ os) := by
  induction os generalizing G with
  | nil => exact Or.inl h
  | cons o rest ih =>
    simp only [addOrgs] at h
    rcases ih h with h' | h'
    · rcases mem_edges_addEdgesToAuthors h' with h'' | h''
      · rw [add_node_edges] at h''
        exact Or.inl h''
      · exact Or.inr ⟨h''.1, by rw [h''.2]; exact List.mem_cons_self _ _⟩
    · exact Or.inr ⟨h'.1, List.mem_cons_of_mem _ h'.2⟩

theorem addOrgs_nodeLabel_of_not_mem {G : Graph} {as os : List String}
    {s : String} (hAs : ∀ a ∈ as, a ∈ G.names) (hs : s ∉ os) :
    (addOrgs G as os).nodeLabel s = G.nodeLabel s := by
  induction os generalizing G with
  | nil => rfl
  | cons o rest ih =>
    simp only [addOrgs]
    have hso : s ≠ o := fun h => hs (h ▸ List.mem_cons_self _ _)
    have hsr : s ∉ rest := fun h => hs (List.mem_cons_of_mem _ h)
    rw [ih (orgStep_hAs hAs o) hsr,
      nodeLabel_congr_nodes (orgStep_nodes hAs o) s]
    exact nodeLabel_add_node_other hso "Organization" "red"

theorem addOrgs_nodeLabel_of_mem {G : Graph} {as os : List String}
    {s : String} (hAs : ∀ a ∈ as, a ∈ G.names) (hs : s ∈ os) :
    (addOrgs G as os).nodeLabel s = some "Organization" := by
  induction os generalizing G with
  | nil => cases hs
  | cons o rest ih =>
    simp only [addOrgs]
    by_cases hr : s ∈ rest
    · exact ih (orgStep_hAs hAs o) hr
    · have hso : s = o := by
        rcases List.mem_cons.mp hs with h | h
        · exact h
        · exact absurd h hr
      subst hso
      rw [addOrgs_nodeLabel_of_not_mem (orgStep_hAs hAs s) hr,
        nodeLabel_congr_nodes (orgStep_nodes hAs s) s]
      exact nodeLabel_add_node_self G s "Organization" "red"

theorem citStep_nodes {G : Graph} {as : List String}
    (hAs : ∀ a ∈ as, a ∈ G.names) (c : String) :
    (addEdgesToAuthors (G.add_node c "Citation" "green") c as).nodes
      = (G.add_node c "Citation" "green").nodes :=
  addEdgesToAuthors_nodes ((mem_names_add_node _ _).mpr (Or.inr rfl))
    (fun a ha => (mem_names_add_node _ _).mpr (Or.inl (hAs a ha)))

theorem citStep_names {G : Graph} {as : List String}
    (hAs : ∀ a ∈ as, a ∈ G.names) (c : String) :
    (addEdgesToAuthors (G.add_node c "Citation" "green") c as).names
      = (G.add_node c "Citation" "green").names := by
  simp [Graph.names, citStep_nodes hAs c]

theorem citStep_hAs {G : Graph} {as : List String}
    (hAs : ∀ a ∈ as, a ∈ G.names) (c : String) :
    ∀ a ∈ as,
      a ∈ (addEdgesToAuthors (G.add_node c "Citation" "green") c as).names :=
  fun a ha => by
    rw [citStep_names hAs c]
    exact (mem_names_add_node _ _).mpr (Or.inl (hAs a ha))

theorem mem_names_addCits {G : Graph} {as cs : List String} {m : String}
    (hAs : ∀ a ∈ as, a ∈ G.names) :
    m ∈ (addCits G as cs).names ↔ m ∈ G.names ∨ m ∈ cs := by
  induction cs generalizing G with
  | nil => simp [addCits]
  | cons c rest ih =>
    simp only [addCits]
    rw [ih (citStep_hAs hAs c), citStep_names hAs c, mem_names_add_node]
    simp only [List.mem_cons]
    tauto

theorem addCits_goodLabels {G : Graph} {as cs : List String}
    (h : goodLabels G) (hAs : ∀ a ∈ as, a ∈ G.names) :
    goodLabels (addCits G as cs) := by
  induction cs generalizing G with
  | nil => exact h
  | cons c rest ih =>
    simp only [addCits]
    refine ih ?_ (citStep_hAs hAs c)
    intro p hp
    rw [citStep_nodes hAs c] at hp
    exact goodLabels_add_node h (Or.inr (Or.inr rfl)) c "green" p hp

theorem addCits_nodup {G : Graph} {as cs : List String}
    (hnd : G.names.Nodup) (hAs : ∀ a ∈ as, a ∈ G.names) :
    (addCits G as cs).names.Nodup := by
  induction cs generalizing G with
  | nil => exact hnd
  | cons c rest ih =>
    simp only [addCits]
    refine ih ?_ (citStep_hAs hAs c)
    rw [citStep_names hAs c]
    exact nodup_names_add_node hnd c "Citation" "green"

theorem addCits_hasEdge_mono {G : Graph} {u v : String}
    (h : G.hasEdge u v = true) (as cs : List String) :
    (addCits G as cs).hasEdge u v = true := by
  induction cs generalizing G with
  | nil => exact h
  | cons c rest ih =>
    simp only [addCits]
    refine ih (addEdgesToAuthors_hasEdge_mono ?_ c as)
    rw [add_node_hasEdge]
    exact h

theorem addCits_hasEdge {G : Graph} {as cs : List String} {a c : String}
    (ha : a ∈ as) (hc : c ∈ cs) :
    (addCits G as cs).hasEdge a c = true := by
  induction cs generalizing G with
  | nil => cases hc
  | cons c' rest ih =>
    simp only [addCits]
    rcases List.mem_cons.mp hc with rfl | hr
    · exact addCits_hasEdge_mono (addEdgesToAuthors_hasEdge ha) as rest
    · exact ih hr

theorem mem_edges_addCits {G : Graph} {as cs : List String}
    {p : String × String} (h : p ∈ (addCits G as cs).edges) :
    p ∈ G.edges ∨ (p.1 ∈ as ∧ p.2 ∈ cs) := by
  induction cs generalizing G with
  | nil => exact Or.inl h
  | cons c rest ih =>
    simp only [addCits] at h
    rcases ih h with h' | h'
    · rcases mem_edges_addEdgesToAuthors h' with h'' | h''
      · rw [add_node_edges] at h''
        exact Or.inl h''
      · exact Or.inr ⟨h''.1, by rw [h''.2]; exact List.mem_cons_self _ _⟩
    · exact Or.inr ⟨h'.1, List.mem_cons_of_mem _ h'.2⟩

theorem addCits_nodeLabel_of_not_mem {G : Graph} {as cs : List String}
    {s : String} (hAs : ∀ a ∈ as, a ∈ G.names) (hs : s ∉ cs) :
    (addCits G as cs).nodeLabel s = G.nodeLabel s := by
  induction cs generalizing G with
  | nil => rfl
  | cons c rest ih =>
    simp only [addCits]
    have hsc : s ≠ c := fun h => hs (h ▸ List.mem_cons_self _ _)
    have hsr : s ∉ rest := fun h => hs (List.mem_cons_of_mem _ h)
    rw [ih (citStep_hAs hAs c) hsr,
      nodeLabel_congr_nodes (citStep_nodes hAs c) s]
    exact nodeLabel_add_node_other hsc "Citation" "green"

theorem addCits_nodeLabel_of_mem {G : Graph} {as cs : List String}
    {s : String} (hAs : ∀ a ∈ as, a ∈ G.names) (hs : s ∈ cs) :
    (addCits G as cs).nodeLabel s = some "Citation" := by
  induction cs generalizing G with
  | nil => cases hs
  | cons c rest ih =>
    simp only [addCits]
    by_cases hr : s ∈ rest
    · exact ih (citStep_hAs hAs c) hr
    · have hsc : s = c := by
        rcases List.mem_cons.mp hs with h | h
        · exact h
        · exact absurd h hr
      subst hsc
      rw [addCits_nodeLabel_of_not_mem (citStep_hAs hAs s) hr,
        nodeLabel_congr_nodes (citStep_nodes hAs s) s]
      exact nodeLabel_add_node_self G s "Citation" "green"

theorem ckg_hAs_afterAuthors {as : List String} :
    ∀ a ∈ as, a ∈ (addAuthors (⟨[], []⟩ : Graph) as).names :=
  fun _ ha => mem_names_addAuthors.mpr (Or.inr ha)

theorem ckg_hAs_afterOrgs {as os : List String} :
    ∀ a ∈ as, a ∈ (addOrgs (addAuthors (⟨[], []⟩ : Graph) as) as os).names :=
  fun a ha => (mem_names_addOrgs ckg_hAs_afterAuthors).mpr
    (Or.inl (ckg_hAs_afterAuthors a ha))

theorem mem_names_ckg {as os cs : List String} {m : String} :
    m ∈ (create_knowledge_graph as os cs).names ↔
      m ∈ as ∨ m ∈ os ∨ m ∈ cs := by
  unfold create_knowledge_graph
  rw [mem_names_addCits ckg_hAs_afterOrgs,
    mem_names_addOrgs ckg_hAs_afterAuthors, mem_names_addAuthors]
  simp only [Graph.names, List.map_nil, List.not_mem_nil, false_or, or_assoc]

theorem ckg_nodup_names (as os cs : List String) :
    (create_knowledge_graph as os cs).names.Nodup := by
  unfold create_knowledge_graph
  refine addCits_nodup ?_ ckg_hAs_afterOrgs
  refine addOrgs_nodup ?_ ckg_hAs_afterAuthors
  refine addAuthors_nodup ?_ as
  show ([] : List String).Nodup
  exact List.nodup_nil

theorem ckg_hasEdge_author_org {as os cs : List String} {a o : String}
    (ha : a ∈ as) (ho : o ∈ os) :
    (create_knowledge_graph as os cs).hasEdge a o = true := by
  unfold create_knowledge_graph
  exact addCits_hasEdge_mono (addOrgs_hasEdge ha ho) as cs

theorem ckg_hasEdge_author_cit {as os cs : List String} {a c : String}
    (ha : a ∈ as) (hc : c ∈ cs) :
    (create_knowledge_graph as os cs).hasEdge a c = true := by
  unfold create_knowledge_graph
  exact addCits_hasEdge ha hc

theorem mem_edges_ckg {as os cs : List String} {p : String × String}
    (h : p ∈ (create_knowledge_graph as os cs).edges) :
    p.1 ∈ as ∧ (p.2 ∈ os ∨ p.2 ∈ cs) := by
  unfold create_knowledge_graph at h
  rcases mem_edges_addCits h with h' | h'
  · rcases mem_edges_addOrgs h' with h'' | h''
    · rw [addAuthors_edges] at h''
      cases h''
    · exact ⟨h''.1, Or.inl h''.2⟩
  · exact ⟨h'.1, Or.inr h'.2⟩

theorem ckg_hasEdge_false_of_not_author {as os cs : List String}
    {u v : String} (hu : u ∉ as) (hv : v ∉ as) :
    (create_knowledge_graph as os cs).hasEdge u v = false := by
  rw [Bool.eq_false_iff]
  intro h
  unfold Graph.hasEdge at h
  simp only [Bool.or_eq_true, decide_eq_true_eq] at h
  rcases h with h | h
  · exact hu (mem_edges_ckg h).1
  · exact hv (mem_edges_ckg h).1

/-- C2, counterexample: the claim says a PERSON-labeled span's text appears
in no set besides the authors set, for every input.  But when the NER
output also contains an ORG-labeled span with the same text, the text
lands in the organizations set as well. -/
theorem C2_counterexample :
    ("X", "PERSON") ∈ [("X", "PERSON"), ("X", "ORG")] ∧
    "X" ∈ (extract_entities [("X", "PERSON"), ("X", "ORG")]).1 ∧
    "X" ∈ (extract_entities [("X", "PERSON"), ("X", "ORG")]).2.1 := by
  decide

/-- C2 (amended): every PERSON-labeled span's text is placed in the authors
set; it is absent from the organizations set provided no span with the
same text is labeled ORG, and absent from the citations set provided no
span with the same text is labeled WORK_OF_ART or MISC. -/
theorem C2_person_bucketing (ents : List (String × String)) (x : String)
    (h : (x, "PERSON") ∈ ents) :
    x ∈ (extract_entities ents).1 ∧
    ((x, "ORG") ∉ ents → x ∉ (extract_entities ents).2.1) ∧
    ((x, "WORK_OF_ART") ∉ ents → (x, "MISC") ∉ ents →
      x ∉ (extract_entities ents).2.2) := by
  refine ⟨mem_extract_authors.mpr h, ?_, ?_⟩
  · intro ho hmem
    exact ho (mem_extract_orgs.mp hmem)
  · intro hw hm hmem
    rcases mem_extract_cits.mp hmem with h' | h'
    · exact hw h'
    · exact hm h'

theorem C2_person_bucketing_witness :
    "X" ∈ (extract_entities [("X", "PERSON")]).1 ∧
    (("X", "ORG") ∉ [("X", "PERSON")] →
      "X" ∉ (extract_entities [("X", "PERSON")]).2.1) ∧
    (("X", "WORK_OF_ART") ∉ [("X", "PERSON")] →
      ("X", "MISC") ∉ [("X", "PERSON")] →
      "X" ∉ (extract_entities [("X", "PERSON")]).2.2) :=
  C2_person_bucketing [("X", "PERSON")] "X" (by decide)

/-- C3, counterexample: the claim says a span with a label outside
{PERSON, ORG, WORK_OF_ART, MISC} has its text in none of the three sets,
for every input.  But when another span with the same text is labeled
PERSON, the text is in the authors set. -/
theorem C3_counterexample :
    ("Y", "GPE") ∈ [("Y", "GPE"), ("Y", "PERSON")] ∧
    ¬("GPE" = "PERSON" ∨ "GPE" = "ORG" ∨ "GPE" = "WORK_OF_ART" ∨
      "GPE" = "MISC") ∧
    "Y" ∈ (extract_entities [("Y", "GPE"), ("Y", "PERSON")]).1 := by
  decide

/-- C3 (amended): every ORG-labeled span's text is placed in the
organizations set, every WORK_OF_ART- or MISC-labeled span's text in the
citations set; a span with any other label contributes to no set — its
text appears in a set only if some span with the same text carries the
corresponding consumed label. -/
theorem C3_label_bucketing (ents : List (String × String)) (x l : String)
    (h : (x, l) ∈ ents) :
    (l = "ORG" → x ∈ (extract_entities ents).2.1) ∧
    (l = "WORK_OF_ART" ∨ l = "MISC" → x ∈ (extract_entities ents).2.2) ∧
    (l ≠ "PERSON" → l ≠ "ORG" → l ≠ "WORK_OF_ART" → l ≠ "MISC" →
      (x ∈ (extract_entities ents).1 → (x, "PERSON") ∈ ents) ∧
      (x ∈ (extract_entities ents).2.1 → (x, "ORG") ∈ ents) ∧
      (x ∈ (extract_entities ents).2.2 →
        (x, "WORK_OF_ART") ∈ ents ∨ (x, "MISC") ∈ ents)) := by
  refine ⟨?_, ?_, ?_⟩
  · rintro rfl
    exact mem_extract_orgs.mpr h
  · rintro (rfl | rfl)
    · exact mem_extract_cits.mpr (Or.inl h)
    · exact mem_extract_cits.mpr (Or.inr h)
  · intro _ _ _ _
    exact ⟨fun hm => mem_extract_authors.mp hm,
           fun hm => mem_extract_orgs.mp hm,
           fun hm => mem_extract_cits.mp hm⟩

theorem C3_label_bucketing_witness :
    ("A" = "ORG" → "A" ∈ (extract_entities [("A", "A")]).2.1) ∧
    ("A" = "WORK_OF_ART" ∨ "A" = "MISC" →
      "A" ∈ (extract_entities [("A", "A")]).2.2) ∧
    ("A" ≠ "PERSON" → "A" ≠ "ORG" → "A" ≠ "WORK_OF_ART" → "A" ≠ "MISC" →
      ("A" ∈ (extract_entities [("A", "A")]).1 →
        ("A", "PERSON") ∈ [("A", "A")]) ∧
      ("A" ∈ (extract_entities [("A", "A")]).2.1 →
        ("A", "ORG") ∈ [("A", "A")]) ∧
      ("A" ∈ (extract_entities [("A", "A")]).2.2 →
        ("A", "WORK_OF_ART") ∈ [("A", "A")] ∨
        ("A", "MISC") ∈ [("A", "A")])) :=
  C3_label_bucketing [("A", "A")] "A" "A" (by decide)

/-- C5: each of the three returned collections contains each entity text
at most once, whatever the list of detected spans. -/
theorem C5_deduplicated (ents : List (String × String)) (x : String) :
    (extract_entities ents).1.count x ≤ 1 ∧
    (extract_entities ents).2.1.count x ≤ 1 ∧
    (extract_entities ents).2.2.count x ≤ 1 := by
  obtain ⟨h₁, h₂, h₃⟩ :=
    @nodup_extractLoop [] [] [] ents
      List.nodup_nil List.nodup_nil List.nodup_nil
  exact ⟨List.nodup_iff_count_le_one.mp h₁ x,
         List.nodup_iff_count_le_one.mp h₂ x,
         List.nodup_iff_count_le_one.mp h₃ x⟩

/-- C1, counterexample: the claim says the graph never contains an edge
between two members of the organizations set, for every input.  But when
a string is in both the authors set and the organizations set, the
author loop connects it to every other organization. -/
theorem C1_counterexample :
    "X" ∈ (["X", "Y"] : List String) ∧ "Y" ∈ (["X", "Y"] : List String) ∧
    (create_knowledge_graph ["X"] ["X", "Y"] []).hasEdge "X" "Y" = true := by
  decide

/-- C1 (amended): provided the authors set is disjoint from the
organizations set and from the citations set, the graph contains an edge
(A, O) for every author A and organization O, an edge (A, C) for every
author A and citation C, and no edge between two organizations, between
two citations, or between an organization and a citation. -/
theorem C1_graph_edges (as os cs : List String)
    (hdO : ∀ x ∈ as, x ∉ os) (hdC : ∀ x ∈ as, x ∉ cs) :
    (∀ a ∈ as, ∀ o ∈ os,
      (create_knowledge_graph as os cs).hasEdge a o = true) ∧
    (∀ a ∈ as, ∀ c ∈ cs,
      (create_knowledge_graph as os cs).hasEdge a c = true) ∧
    (∀ o₁ ∈ os, ∀ o₂ ∈ os,
      (create_knowledge_graph as os cs).hasEdge o₁ o₂ = false) ∧
    (∀ c₁ ∈ cs, ∀ c₂ ∈ cs,
      (create_knowledge_graph as os cs).hasEdge c₁ c₂ = false) ∧
    (∀ o ∈ os, ∀ c ∈ cs,
      (create_knowledge_graph as os cs).hasEdge o c = false) := by
  have hOa : ∀ x ∈ os, x ∉ as := fun x hx hxa => hdO x hxa hx
  have hCa : ∀ x ∈ cs, x ∉ as := fun x hx hxa => hdC x hxa hx
  refine ⟨fun a ha o ho => ckg_hasEdge_author_org ha ho,
    fun a ha c hc => ckg_hasEdge_author_cit ha hc, ?_, ?_, ?_⟩
  · intro o₁ h₁ o₂ h₂
    exact ckg_hasEdge_false_of_not_author (hOa o₁ h₁) (hOa o₂ h₂)
  · intro c₁ h₁ c₂ h₂
    exact ckg_hasEdge_false_of_not_author (hCa c₁ h₁) (hCa c₂ h₂)
  · intro o ho c hc
    exact ckg_hasEdge_false_of_not_author (hOa o ho) (hCa c hc)

theorem C1_graph_edges_witness :
    (∀ a ∈ (["A"] : List String), ∀ o ∈ (["O"] : List String),
      (create_knowledge_graph ["A"] ["O"] ["C"]).hasEdge a o = true) ∧
    (∀ a ∈ (["A"] : List String), ∀ c ∈ (["C"] : List String),
      (create_knowledge_graph ["A"] ["O"] ["C"]).hasEdge a c = true) ∧
    (∀ o₁ ∈ (["O"] : List String), ∀ o₂ ∈ (["O"] : List String),
      (create_knowledge_graph ["A"] ["O"] ["C"]).hasEdge o₁ o₂ = false) ∧
    (∀ c₁ ∈ (["C"] : List String), ∀ c₂ ∈ (["C"] : List String),
      (create_knowledge_graph ["A"] ["O"] ["C"]).hasEdge c₁ c₂ = false) ∧
    (∀ o ∈ (["O"] : List String), ∀ c ∈ (["C"] : List String),
      (create_knowledge_graph ["A"] ["O"] ["C"]).hasEdge o c = false) :=
  C1_graph_edges ["A"] ["O"] ["C"] (by decide) (by decide)

/-- C4: with exactly one PERSON entity "Jane Doe" and one ORG entity
"Acme Corp" detected, extraction yields exactly those two singleton sets,
and the graph has exactly two nodes and exactly one edge, which connects
the two nodes. -/
theorem C4_single_pair :
    extract_entities [("Jane Doe", "PERSON"), ("Acme Corp", "ORG")]
      = (["Jane Doe"], ["Acme Corp"], []) ∧
    (create_knowledge_graph ["Jane Doe"] ["Acme Corp"] []).nodes.length = 2 ∧
    (create_knowledge_graph ["Jane Doe"] ["Acme Corp"] []).names
      = ["Jane Doe", "Acme Corp"] ∧
    (create_knowledge_graph ["Jane Doe"] ["Acme Corp"] []).edges
      = [("Jane Doe", "Acme Corp")] := by
  decide

/-- C6: every node of the graph built by create_knowledge_graph carries a
label attribute that is one of "Author", "Organization", "Citation". -/
theorem C6_node_labels (as os cs : List String) :
    goodLabels (create_knowledge_graph as os cs) := by
  have hbase : goodLabels (⟨[], []⟩ : Graph) := by
    intro p hp
    cases hp
  unfold create_knowledge_graph
  exact addCits_goodLabels
    (addOrgs_goodLabels (addAuthors_goodLabels hbase as) ckg_hAs_afterAuthors)
    ckg_hAs_afterOrgs

/-- C7: for each entity category, an empty extracted set makes the results
column render the explicit "none found" message for that category. -/
theorem C7_empty_indicator (a o c : List String) :
    (a = [] → displayAuthors a = RenderOut.message "No authors found") ∧
    (o = [] →
      displayOrganizations o = RenderOut.message "No organizations found") ∧
    (c = [] → displayCitations c = RenderOut.message "No citations found") := by
  refine ⟨?_, ?_, ?_⟩ <;> rintro rfl <;> rfl

theorem C7_empty_indicator_witness :
    displayAuthors [] = RenderOut.message "No authors found" ∧
    displayOrganizations [] = RenderOut.message "No organizations found" ∧
    displayCitations [] = RenderOut.message "No citations found" :=
  ⟨(C7_empty_indicator [] [] []).1 rfl, (C7_empty_indicator [] [] []).2.1 rfl,
   (C7_empty_indicator [] [] []).2.2 rfl⟩

/-- C8, counterexample: the claim says the temporary file no longer exists
after render_graph returns even when a library call inside it raises.
But the code uses delete equal to False and a manual unlink with no
try/finally, so when net.save_graph raises, the temp file is left on the
filesystem. -/
theorem C8_counterexample :
    (render_graph [] "tmp.html" "page" false true).1 =
      Except.error "save_graph failed" ∧
    "tmp.html" ∈ (render_graph [] "tmp.html" "page" false true).2 := by
  refine ⟨rfl, ?_⟩
  simp [render_graph]

/-- C8 (amended): on an exception-free run, render_graph creates exactly
one fresh temporary file, reads the rendered HTML back, deletes the file,
and leaves the filesystem exactly as it found it. -/
theorem C8_temp_file_lifecycle (fs : List String) (tmpName html : String)
    (hfresh : tmpName ∉ fs) :
    render_graph fs tmpName html true true = (Except.ok html, fs) := by
  unfold render_graph
  have herase : (fs ++ [tmpName]).erase tmpName = fs := by
    rw [List.erase_append_right _ hfresh, List.erase_cons_head,
      List.append_nil]
  simp [herase]

theorem C8_temp_file_lifecycle_witness :
    render_graph ["other"] "t" "h" true true = (Except.ok "h", ["other"]) :=
  C8_temp_file_lifecycle ["other"] "t" "h" (by decide)

/-- C9, counterexample: the claim says a string present in both the
authors set and the organizations set ends up labeled "Organization".
But when the string is also in the citations set, the citation loop runs
last and overwrites the label to "Citation". -/
theorem C9_counterexample :
    "X" ∈ (["X"] : List String) ∧
    (create_knowledge_graph ["X"] ["X"] ["X"]).nodeLabel "X"
      = some "Citation" ∧
    some "Citation" ≠ some ("Organization" : String) := by
  decide

/-- C9 (amended): a string in both the authors and organizations sets
(and not in the citations set) yields a single node whose label is
overwritten to "Organization", with a self-loop edge; a string in both
the authors and citations sets yields a single node labeled "Citation"
with a self-loop edge. -/
theorem C9_label_overwrite (as os cs : List String) (s : String) :
    (s ∈ as → s ∈ os → s ∉ cs →
      (create_knowledge_graph as os cs).nodeLabel s = some "Organization" ∧
      (create_knowledge_graph as os cs).names.count s = 1 ∧
      (create_knowledge_graph as os cs).hasEdge s s = true) ∧
    (s ∈ as → s ∈ cs →
      (create_knowledge_graph as os cs).nodeLabel s = some "Citation" ∧
      (create_knowledge_graph as os cs).names.count s = 1 ∧
      (create_knowledge_graph as os cs).hasEdge s s = true) := by
  constructor
  · intro hsa hso hsc
    refine ⟨?_, ?_, ckg_hasEdge_author_org hsa hso⟩
    · show (addCits _ _ _).nodeLabel s = some "Organization"
      rw [addCits_nodeLabel_of_not_mem ckg_hAs_afterOrgs hsc]
      exact addOrgs_nodeLabel_of_mem ckg_hAs_afterAuthors hso
    · exact List.count_eq_one_of_mem (ckg_nodup_names as os cs)
        (mem_names_ckg.mpr (Or.inl hsa))
  · intro hsa hsc
    refine ⟨?_, ?_, ckg_hasEdge_author_cit hsa hsc⟩
    · show (addCits _ _ _).nodeLabel s = some "Citation"
      exact addCits_nodeLabel_of_mem ckg_hAs_afterOrgs hsc
    · exact List.count_eq_one_of_mem (ckg_nodup_names as os cs)
        (mem_names_ckg.mpr (Or.inl hsa))

theorem C9_label_overwrite_witness :
    ((create_knowledge_graph ["X"] ["X"] []).nodeLabel "X"
        = some "Organization" ∧
      (create_knowledge_graph ["X"] ["X"] []).names.count "X" = 1 ∧
      (create_knowledge_graph ["X"] ["X"] []).hasEdge "X" "X" = true) ∧
    ((create_knowledge_graph ["Y"] [] ["Y"]).nodeLabel "Y"
        = some "Citation" ∧
      (create_knowledge_graph ["Y"] [] ["Y"]).names.count "Y" = 1 ∧
      (create_knowledge_graph ["Y"] [] ["Y"]).hasEdge "Y" "Y" = true) :=
  ⟨(C9_label_overwrite ["X"] ["X"] [] "X").1 (by decide) (by decide)
      (by decide),
   (C9_label_overwrite ["Y"] [] ["Y"] "Y").2 (by decide) (by decide)⟩

/-- C10: with an empty authors set, create_knowledge_graph produces no
edges at all, so every organization and citation node is isolated. -/
theorem C10_no_authors_no_edges (os cs : List String) :
    (create_knowledge_graph [] os cs).edges = [] ∧
    (∀ u v, (create_knowledge_graph [] os cs).hasEdge u v = false) := by
  have hedges : (create_knowledge_graph [] os cs).edges = [] := by
    cases he : (create_knowledge_graph [] os cs).edges with
    | nil => rfl
    | cons p rest =>
      have hp : p ∈ (create_knowledge_graph [] os cs).edges := by
        rw [he]
        exact List.mem_cons_self _ _
      cases (mem_edges_ckg hp).1
  refine ⟨hedges, fun u v => ?_⟩
  unfold Graph.hasEdge
  rw [hedges]
  simp
